import Mathlib

/-!
Verification of the core linguistic analysis of the isthmian-script repository
(`src/lexical_analysis/advanced_analysis.py`): form normalization, phonemic
segmentation, sound-correspondence accumulation, Jaccard phonetic similarity,
the cognate-candidate report, and the positional alignment tables.

Strings are modelled as `List Char` (Python `str` is a sequence of code
points).  The scanning `while` loops of the script advance their cursor by at
least one position per iteration; they are embedded as structurally recursive
functions on a fuel argument initialised to the string length, and
fuel-insensitivity above the string length is proved (`rpGo_congr`,
`cwGo_congr`, `segGo_congr`), which is exactly the termination argument of
the original loops.  Python's Unicode character classes (`\s`,
`str.isalpha`, `unicodedata` Mark categories, `str.lower`) are modelled over
the code points that occur in this corpus and in the script's own tables;
that restriction is noted at each such definition.
-/

namespace Isthmus

/-- The set of code points matched by Python's `\s` / `str.isspace` /
bare `str.strip`, restricted to the ASCII control whitespace, the ASCII
space, NEL, NBSP and the common Unicode space separators. -/
def pySpaceChars : List Char :=
  [Char.ofNat 9, Char.ofNat 10, Char.ofNat 11, Char.ofNat 12, Char.ofNat 13,
   Char.ofNat 28, Char.ofNat 29, Char.ofNat 30, Char.ofNat 31, Char.ofNat 32,
   Char.ofNat 133, Char.ofNat 160, Char.ofNat 0x1680,
   Char.ofNat 0x2000, Char.ofNat 0x2001, Char.ofNat 0x2002, Char.ofNat 0x2003,
   Char.ofNat 0x2004, Char.ofNat 0x2005, Char.ofNat 0x2006, Char.ofNat 0x2007,
   Char.ofNat 0x2008, Char.ofNat 0x2009, Char.ofNat 0x200A,
   Char.ofNat 0x2028, Char.ofNat 0x2029, Char.ofNat 0x202F, Char.ofNat 0x205F,
   Char.ofNat 0x3000]

/-- Python whitespace test (`\s`). -/
def isPySpace (c : Char) : Bool := c ∈ pySpaceChars

/-- Scanning loop of `re.sub(r'\([^)]*\)', '', text)`: the leftmost `(` that
has a later `)` is removed together with everything up to and including the
first such `)`, and scanning resumes after it; a `(` with no later `)` is
kept.  This is the leftmost non-overlapping match semantics of `re.sub` for
this pattern.  `fuel` bounds the number of iterations; one character is
consumed per iteration, so `fuel = length` suffices (`rpGo_congr`). -/
def rpGo : Nat → List Char → List Char
  | _, [] => []
  | 0, l => l
  | fuel + 1, c :: rest =>
    if c = '(' ∧ ')' ∈ rest then
      rpGo fuel ((rest.dropWhile (· ≠ ')')).tail)
    else
      c :: rpGo fuel rest

/-- `re.sub(r'\([^)]*\)', '', text)`. -/
def removeParens (l : List Char) : List Char := rpGo l.length l

/-- `re.sub(r'\*', '', text)`: drop every asterisk. -/
def removeStars (l : List Char) : List Char := l.filter (· ≠ '*')

/-- Scanning loop of `re.sub(r'\s+', ' ', text)`: every maximal run of
whitespace becomes a single ASCII space. -/
def cwGo : Nat → List Char → List Char
  | _, [] => []
  | 0, l => l
  | fuel + 1, c :: rest =>
    if isPySpace c then ' ' :: cwGo fuel (rest.dropWhile isPySpace)
    else c :: cwGo fuel rest

/-- `re.sub(r'\s+', ' ', text)`. -/
def collapseWS (l : List Char) : List Char := cwGo l.length l

/-- Trailing-whitespace removal (the right half of Python `str.strip()`). -/
def stripEnd : List Char → List Char
  | [] => []
  | c :: rest =>
    match stripEnd rest with
    | [] => if isPySpace c then [] else [c]
    | r => c :: r

/-- Python `str.strip()`: drop leading and trailing whitespace. -/
def stripWS (l : List Char) : List Char := stripEnd (l.dropWhile isPySpace)

/-- `normalize_form` (advanced_analysis.py lines 31-41): empty input yields
the empty string; otherwise remove parentheticals, remove asterisks,
collapse whitespace runs to one space, and strip the ends. -/
def normalize_form (l : List Char) : List Char :=
  if l = [] then [] else stripWS (collapseWS (removeStars (removeParens l)))

/-- The extra glottal/apostrophe markers the segmenter keeps
(`"'ʔʼˀ"`: U+0027, U+0294, U+02BC, U+02C0). -/
def glottalChars : List Char :=
  [Char.ofNat 39, Char.ofNat 0x294, Char.ofNat 0x2BC, Char.ofNat 0x2C0]

/-- Python `str.isalpha`, modelled over ASCII letters plus the non-ASCII
letters used by this script's digraph table and vowel list
(ñ Ñ ɨ ɛ ɔ ə ʌ æ œ ø ü ö ä). -/
def pyIsAlpha (c : Char) : Bool :=
  c.isAlpha ||
    c ∈ [Char.ofNat 0xF1, Char.ofNat 0xD1, Char.ofNat 0x268, Char.ofNat 0x25B,
         Char.ofNat 0x254, Char.ofNat 0x259, Char.ofNat 0x28C, Char.ofNat 0xE6,
         Char.ofNat 0x153, Char.ofNat 0xF8, Char.ofNat 0xFC, Char.ofNat 0xF6,
         Char.ofNat 0xE4]

/-- Python `str.lower`, modelled as ASCII lowering plus Ñ→ñ (the one
non-ASCII cased letter in the script's tables). -/
def pyToLower (c : Char) : Char :=
  if c = Char.ofNat 0xD1 then Char.ofNat 0xF1 else c.toLower

/-- `unicodedata.category(c).startswith('M')`, modelled over the combining
mark blocks (Combining Diacritical Marks, Extended, Marks for Symbols,
Combining Half Marks). -/
def isMark (c : Char) : Bool :=
  (0x300 ≤ c.toNat && c.toNat ≤ 0x36F) ||
  (0x1AB0 ≤ c.toNat && c.toNat ≤ 0x1AFF) ||
  (0x20D0 ≤ c.toNat && c.toNat ≤ 0x20F0) ||
  (0xFE20 ≤ c.toNat && c.toNat ≤ 0xFE2F)

/-- The fixed digraph table of `extract_phonemes` (every entry has exactly
two code points, so first-match-in-table-order over two-character slices
consumes the same span as membership in the table). -/
def digraphs : List (List Char) :=
  [['t','s'], ['t','z'], ['c','h'], ['d','z'], ['g','u'], ['q','u'],
   ['h','u'], ['n','g'], [Char.ofNat 0xF1,'h'], ['x','h'], ['n','d'],
   ['m','b'], ['n','h'], ['t','h'], ['p','h'], ['k','h'], ['t','x'],
   ['d','j'], ['n','z'], ['n','y']]

/-- The skip filter of the segmenter loop: a position is consumed as a
segment start iff it is alphabetic or one of the glottal markers. -/
def isSegStart (c : Char) : Bool := pyIsAlpha c || c ∈ glottalChars

/-- Does the two-character slice starting here match the digraph table
(case-insensitively, `text[i:i+len(dg)].lower() == dg`)? -/
def isDigraphPair (c b : Char) : Bool := [pyToLower c, pyToLower b] ∈ digraphs

/-- The scanning loop of `extract_phonemes` (lines 55-83): skip
non-letter/non-glottal characters; otherwise try the digraph table on the
two-character slice, absorb following combining marks, emit the lower-cased
span; otherwise emit the single character with its combining marks.  `fuel`
bounds the iterations; each iteration consumes at least one character, so
`fuel = length` suffices (`segGo_congr`). -/
def segGo : Nat → List Char → List (List Char)
  | _, [] => []
  | 0, _ => []
  | fuel + 1, c :: rest =>
    if isSegStart c then
      match rest with
      | [] => [[pyToLower c]]
      | b :: rest2 =>
        if isDigraphPair c b then
          ((c :: b :: rest2.takeWhile isMark).map pyToLower)
            :: segGo fuel (rest2.dropWhile isMark)
        else
          ((c :: rest.takeWhile isMark).map pyToLower)
            :: segGo fuel (rest.dropWhile isMark)
    else segGo fuel rest

/-- The scanning loop of `extract_phonemes`, at its sufficient fuel. -/
def segLoop (l : List Char) : List (List Char) := segGo l.length l

/-- `extract_phonemes` (lines 43-84): normalize, then run the scanning
loop. -/
def extract_phonemes (l : List Char) : List (List Char) :=
  if l = [] then [] else segLoop (normalize_form l)

/-- A lexical entry (one row of the wordlist): an English gloss and a
mapping from language code to raw transcription.  Language codes are
modelled as abstract identifiers (`Nat`); the Python dict is an
association list queried with `List.lookup`. -/
structure LexicalEntry where
  gloss : List Char
  forms : List (Nat × List Char)
deriving DecidableEq

/-- `form.split(',')[0]`: the first comma-separated variant. -/
def first_variant (l : List Char) : List Char := l.takeWhile (· ≠ ',')

/-- `initial_segments[lang]` (lines 132-137): the first segment of the
first comma-variant of the language's form — `none` when the language has
no form, its form is empty (Python truthiness), or the segmenter returns
no segments.  No default segment is ever substituted. -/
def initial_segment (forms : List (Nat × List Char)) (lang : Nat) :
    Option (List Char) :=
  match forms.lookup lang with
  | none => none
  | some f =>
    if f = [] then none
    else
      match extract_phonemes (first_variant f) with
      | [] => none
      | s :: _ => some s

/-- `correspondence_pairs[(lang1, lang2)][(s1, s2)]` (lines 127-144) for a
roster pair `(lang1, lang2)`: the number of entries in which `lang1`'s
initial segment is `s1` and `lang2`'s initial segment is `s2`.  An entry
contributes only when both languages resolve to an initial segment. -/
def correspondence_count (entries : List LexicalEntry) (lang1 lang2 : Nat)
    (s1 s2 : List Char) : Nat :=
  entries.countP fun e =>
    decide (initial_segment e.forms lang1 = some s1 ∧
            initial_segment e.forms lang2 = some s2)

/-- `phonetic_similarity` (lines 172-186): Jaccard index of the two
distinct-segment sets (`set(...)` is modelled by `List.dedup`), with the
script's three guards: empty input strings, empty segment sets, and a
zero-union check before the division. -/
def phonetic_similarity (form1 form2 : List Char) : ℚ :=
  if form1 = [] ∨ form2 = [] then 0
  else if (extract_phonemes form1).dedup = [] ∨
          (extract_phonemes form2).dedup = [] then 0
  else if 0 < ((extract_phonemes form1).dedup ∪
               (extract_phonemes form2).dedup).length then
    (((extract_phonemes form1).dedup.filter
        (· ∈ (extract_phonemes form2).dedup)).length : ℚ) /
      (((extract_phonemes form1).dedup ∪
        (extract_phonemes form2).dedup).length : ℚ)
  else 0

/-- One record of `potential_cognates`: only the gloss and the similarity
score participate in the ranking/de-duplication of the report, so the
transcription fields are omitted. -/
structure Candidate where
  gloss : List Char
  similarity : ℚ
deriving DecidableEq

/-- Stable insertion step: `a` is placed before the first element `b` with
`r a b` (for a total `r`, this inserts into an `r`-sorted list keeping
earlier-listed elements of equal rank first, like Python's stable sort). -/
def insertOrd {α : Type} (r : α → α → Prop) [DecidableRel r] (a : α) :
    List α → List α
  | [] => [a]
  | b :: l => if r a b then a :: b :: l else b :: insertOrd r a l

/-- Stable sort by `r` (insertion sort), modelling Python's stable
`sorted`. -/
def sortOrd {α : Type} (r : α → α → Prop) [DecidableRel r] :
    List α → List α
  | [] => []
  | a :: l => insertOrd r a (sortOrd r l)

/-- `sorted(potential_cognates, key=lambda x: -x['similarity'])`: stable
sort by descending similarity. -/
def sortDesc (l : List Candidate) : List Candidate :=
  sortOrd (fun a b => b.similarity ≤ a.similarity) l

/-- The `seen_glosses` loop body (lines 225-235): keep an item only if its
gloss has not been printed yet. -/
def seen_glosses_filter : List (List Char) → List Candidate → List Candidate
  | _, [] => []
  | seen, c :: rest =>
    if c.gloss ∈ seen then seen_glosses_filter seen rest
    else c :: seen_glosses_filter (c.gloss :: seen) rest

/-- The printed cognate report (lines 224-235): sort by descending
similarity, truncate to the top 15, then de-duplicate by gloss. -/
def cognate_report (cands : List Candidate) : List Candidate :=
  seen_glosses_filter [] ((sortDesc cands).take 15)

/-- One row of `proto_mixtec_entries`: the reconstructed form and its
daughter-language reflex. -/
structure PMEntry where
  proto_form : List Char
  mixtec_daughter : List Char
deriving DecidableEq

/-- The alignment loop body (lines 279-281): pair `pm_segs[i]` with
`da_segs[i]` for `i < min(3, len(pm_segs))`, emitting nothing at `i` when
the daughter sequence is shorter. -/
def align_observations (pm da : List Char) : List (List Char × List Char) :=
  ((extract_phonemes pm).take (min 3 (extract_phonemes pm).length)).zip
    (extract_phonemes da)

/-- All (source → target) observations aggregated across the entries
(`pm_to_daughter`). -/
def pm_to_daughter_obs (entries : List PMEntry) :
    List (List Char × List Char) :=
  (entries.map fun e => align_observations e.proto_form e.mixtec_daughter).flatten

/-- `pm_to_daughter[src][tgt]`: how often `src` was observed to
correspond to `tgt`. -/
def pm_to_daughter_count (obs : List (List Char × List Char))
    (src tgt : List Char) : Nat :=
  obs.countP fun o => decide (o.1 = src ∧ o.2 = tgt)

/-- `pm_to_daughter[src].total()`: all observations for source `src`. -/
def pm_to_daughter_total (obs : List (List Char × List Char))
    (src : List Char) : Nat :=
  obs.countP fun o => decide (o.1 = src)

/-- `pm_to_daughter[src].most_common(3)`: the distinct observed targets of
`src` with their counts, sorted by descending count, truncated to three. -/
def pm_to_daughter_top3 (obs : List (List Char × List Char))
    (src : List Char) : List (List Char × Nat) :=
  (sortOrd (fun p q => q.2 ≤ p.2)
    (((obs.filter fun o => decide (o.1 = src)).map Prod.snd).dedup.map
      fun t => (t, pm_to_daughter_count obs src t))).take 3

/-- The printed alignment table (lines 283-289): a source segment is
reported iff it was observed and its total count is at least 3, with its
top-3 targets. -/
def pm_to_daughter_report (obs : List (List Char × List Char)) :
    List (List Char × List (List Char × Nat)) :=
  (((obs.map Prod.fst).dedup.filter fun s =>
      decide (3 ≤ pm_to_daughter_total obs s)).map
    fun s => (s, pm_to_daughter_top3 obs s))

/-- No `(` in the list is followed by a later `)`; on such strings the
parenthetical-removal pass is the identity, and its outputs satisfy it. -/
def parenOK : List Char → Prop
  | [] => True
  | c :: rest => (c = '(' → ')' ∉ rest) ∧ parenOK rest

/-- Whitespace is already collapsed: every whitespace character is an
ASCII space not followed by further whitespace.  On such strings the
whitespace-collapsing pass is the identity, and its outputs satisfy it. -/
def wsOK : List Char → Prop
  | [] => True
  | c :: rest =>
    (isPySpace c = true → (c = ' ' ∧ rest.dropWhile isPySpace = rest)) ∧
      wsOK rest

/-! Fuel insensitivity: each loop consumes at least one character per
iteration, so any fuel at least the string length yields the same result.
These lemmas are the termination arguments of the original `while`/scan
loops. -/

theorem rpGo_congr : ∀ n m : Nat, ∀ l : List Char,
    l.length ≤ n → l.length ≤ m → rpGo n l = rpGo m l
  | _, _, [] , _, _ => by simp [rpGo]
  | n + 1, m + 1, c :: rest, hn, hm => by
    have hn' : rest.length ≤ n := by
      simpa [Nat.succ_le_succ_iff] using hn
    have hm' : rest.length ≤ m := by
      simpa [Nat.succ_le_succ_iff] using hm
    have hdrop : ((rest.dropWhile (· ≠ ')')).tail).length ≤ rest.length := by
      have h1 := (List.dropWhile_suffix (l := rest) (· ≠ ')')).length_le
      have h2 := (List.tail_suffix (rest.dropWhile (· ≠ ')'))).length_le
      omega
    simp only [rpGo]
    split
    · exact rpGo_congr n m _ (le_trans hdrop hn') (le_trans hdrop hm')
    · rw [rpGo_congr n m rest hn' hm']

theorem cwGo_congr : ∀ n m : Nat, ∀ l : List Char,
    l.length ≤ n → l.length ≤ m → cwGo n l = cwGo m l
  | _, _, [] , _, _ => by simp [cwGo]
  | n + 1, m + 1, c :: rest, hn, hm => by
    have hn' : rest.length ≤ n := by
      simpa [Nat.succ_le_succ_iff] using hn
    have hm' : rest.length ≤ m := by
      simpa [Nat.succ_le_succ_iff] using hm
    have hdrop : (rest.dropWhile isPySpace).length ≤ rest.length :=
      (List.dropWhile_suffix (l := rest) isPySpace).length_le
    simp only [cwGo]
    split
    · rw [cwGo_congr n m _ (le_trans hdrop hn') (le_trans hdrop hm')]
    · rw [cwGo_congr n m rest hn' hm']

theorem segGo_congr : ∀ n m : Nat, ∀ l : List Char,
    l.length ≤ n → l.length ≤ m → segGo n l = segGo m l
  | _, _, [] , _, _ => by simp [segGo]
  | n + 1, m + 1, c :: rest, hn, hm => by
    have hn' : rest.length ≤ n := by
      simpa [Nat.succ_le_succ_iff] using hn
    have hm' : rest.length ≤ m := by
      simpa [Nat.succ_le_succ_iff] using hm
    simp only [segGo]
    split
    · match rest, hn', hm' with
      | [], _, _ => rfl
      | b :: rest2, hn', hm' =>
        simp only []
        have hd2 : (rest2.dropWhile isMark).length ≤ rest2.length :=
          (List.dropWhile_suffix (l := rest2) isMark).length_le
        have hd1 : ((b :: rest2).dropWhile isMark).length ≤ rest2.length + 1 :=
          (List.dropWhile_suffix (l := b :: rest2) isMark).length_le
        simp only [List.length_cons] at hn' hm'
        split
        · rw [segGo_congr n m _ (by omega) (by omega)]
        · rw [segGo_congr n m _ (by omega) (by omega)]
    · exact segGo_congr n m rest hn' hm'

/-- Unfolding equation for `removeParens` as a recursion on the string
itself. -/
theorem removeParens_cons (c : Char) (rest : List Char) :
    removeParens (c :: rest) =
      if c = '(' ∧ ')' ∈ rest then
        removeParens ((rest.dropWhile (· ≠ ')')).tail)
      else
        c :: removeParens rest := by
  have hdrop : ((rest.dropWhile (· ≠ ')')).tail).length ≤ rest.length := by
    have h1 := (List.dropWhile_suffix (l := rest) (· ≠ ')')).length_le
    have h2 := (List.tail_suffix (rest.dropWhile (· ≠ ')'))).length_le
    omega
  show rpGo (rest.length + 1) (c :: rest) = _
  simp only [rpGo]
  split
  · exact rpGo_congr _ _ _ hdrop le_rfl
  · rw [rpGo_congr rest.length _ rest le_rfl le_rfl]
    rfl

/-- Unfolding equation for `collapseWS` as a recursion on the string
itself. -/
theorem collapseWS_cons (c : Char) (rest : List Char) :
    collapseWS (c :: rest) =
      if isPySpace c then ' ' :: collapseWS (rest.dropWhile isPySpace)
      else c :: collapseWS rest := by
  have hdrop : (rest.dropWhile isPySpace).length ≤ rest.length :=
    (List.dropWhile_suffix (l := rest) isPySpace).length_le
  show cwGo (rest.length + 1) (c :: rest) = _
  simp only [cwGo]
  split
  · rw [cwGo_congr rest.length _ _ hdrop le_rfl]
    rfl
  · rw [cwGo_congr rest.length _ rest le_rfl le_rfl]
    rfl

/-- Unfolding equation for `segLoop` as a recursion on the string itself. -/
theorem segLoop_cons (c : Char) (rest : List Char) :
    segLoop (c :: rest) =
      if isSegStart c then
        match rest with
        | [] => [[pyToLower c]]
        | b :: rest2 =>
          if isDigraphPair c b then
            ((c :: b :: rest2.takeWhile isMark).map pyToLower)
              :: segLoop (rest2.dropWhile isMark)
          else
            ((c :: rest.takeWhile isMark).map pyToLower)
              :: segLoop (rest.dropWhile isMark)
      else segLoop rest := by
  show segGo (rest.length + 1) (c :: rest) = _
  simp only [segGo]
  split
  · match rest with
    | [] => rfl
    | b :: rest2 =>
      have hd2 : (rest2.dropWhile isMark).length ≤ rest2.length :=
        (List.dropWhile_suffix (l := rest2) isMark).length_le
      have hd1 : ((b :: rest2).dropWhile isMark).length ≤ rest2.length + 1 :=
        (List.dropWhile_suffix (l := b :: rest2) isMark).length_le
      simp only [List.length_cons]
      split
      · rw [segGo_congr (rest2.length + 1) _ _ (by omega) le_rfl]
        rfl
      · rw [segGo_congr (rest2.length + 1) _ _ (by omega) le_rfl]
        rfl
  · exact segGo_congr _ _ rest le_rfl le_rfl

/-! Character-preservation lemmas for the normalization passes. -/

theorem mem_rpGo : ∀ (n : Nat) (l : List Char) (x : Char), x ∈ rpGo n l → x ∈ l
  | _, [], x, h => by simp [rpGo] at h
  | 0, c :: rest, x, h => by simpa [rpGo] using h
  | n + 1, c :: rest, x, h => by
    simp only [rpGo] at h
    split at h
    · have hsub : (rest.dropWhile (· ≠ ')')).tail <:+ rest :=
        (List.tail_suffix _).trans (List.dropWhile_suffix _)
      exact List.mem_cons_of_mem c (hsub.subset (mem_rpGo n _ x h))
    · rcases List.mem_cons.1 h with h1 | h2
      · exact h1 ▸ List.mem_cons_self c rest
      · exact List.mem_cons_of_mem c (mem_rpGo n rest x h2)

theorem mem_removeParens {x : Char} {l : List Char} (h : x ∈ removeParens l) :
    x ∈ l := mem_rpGo _ _ _ h

theorem mem_cwGo : ∀ (n : Nat) (l : List Char) (x : Char),
    x ∈ cwGo n l → x ∈ l ∨ x = ' '
  | _, [], x, h => by simp [cwGo] at h
  | 0, c :: rest, x, h => by
    left
    simpa [cwGo] using h
  | n + 1, c :: rest, x, h => by
    simp only [cwGo] at h
    split at h
    · rcases List.mem_cons.1 h with h1 | h2
      · exact Or.inr h1
      · rcases mem_cwGo n _ x h2 with h3 | h3
        · exact Or.inl (List.mem_cons_of_mem c
            ((List.dropWhile_suffix isPySpace).subset h3))
        · exact Or.inr h3
    · rcases List.mem_cons.1 h with h1 | h2
      · exact Or.inl (h1 ▸ List.mem_cons_self c rest)
      · rcases mem_cwGo n rest x h2 with h3 | h3
        · exact Or.inl (List.mem_cons_of_mem c h3)
        · exact Or.inr h3

theorem mem_collapseWS {x : Char} {l : List Char} (h : x ∈ collapseWS l) :
    x ∈ l ∨ x = ' ' := mem_cwGo _ _ _ h

theorem stripEnd_sublist : ∀ l : List Char, (stripEnd l).Sublist l
  | [] => by simp [stripEnd]
  | c :: rest => by
    simp only [stripEnd]
    cases hr : stripEnd rest with
    | nil =>
      by_cases hc : isPySpace c = true
      · rw [if_pos hc]
        exact List.nil_sublist _
      · rw [if_neg hc]
        exact (List.nil_sublist rest).cons₂ c
    | cons d r =>
      exact (hr ▸ stripEnd_sublist rest).cons₂ c

theorem stripWS_sublist (l : List Char) : (stripWS l).Sublist l :=
  (stripEnd_sublist _).trans (List.dropWhile_suffix isPySpace).sublist

/-! The parenthetical-removal pass: its output has no `(` followed by a
later `)`, and it is the identity exactly on such strings. -/

theorem parenOK_sublist : ∀ {l1 l2 : List Char}, l1.Sublist l2 → parenOK l2 → parenOK l1 := by
  intro l1 l2 h
  induction h with
  | slnil => exact id
  | cons a _ ih =>
    intro h2
    exact ih h2.2
  | cons₂ a h ih =>
    intro h2
    exact ⟨fun hc hmem => h2.1 hc (h.subset hmem), ih h2.2⟩

theorem parenOK_rpGo : ∀ (n : Nat) (l : List Char), l.length ≤ n → parenOK (rpGo n l)
  | _, [], _ => by simp [rpGo, parenOK]
  | 0, c :: rest, h => absurd h (by simp)
  | n + 1, c :: rest, h => by
    have hn : rest.length ≤ n := by simpa [Nat.succ_le_succ_iff] using h
    have hdrop : ((rest.dropWhile (· ≠ ')')).tail).length ≤ rest.length := by
      have h1 := (List.dropWhile_suffix (l := rest) (· ≠ ')')).length_le
      have h2 := (List.tail_suffix (rest.dropWhile (· ≠ ')'))).length_le
      omega
    simp only [rpGo]
    split
    · exact parenOK_rpGo n _ (le_trans hdrop hn)
    · next hc =>
      refine ⟨fun hceq hmem => ?_, parenOK_rpGo n rest hn⟩
      exact hc ⟨hceq, mem_rpGo n rest _ hmem⟩

theorem parenOK_removeParens (l : List Char) : parenOK (removeParens l) :=
  parenOK_rpGo _ _ le_rfl

theorem rpGo_id : ∀ (n : Nat) (l : List Char), l.length ≤ n → parenOK l → rpGo n l = l
  | _, [], _, _ => by simp [rpGo]
  | 0, c :: rest, h, _ => absurd h (by simp)
  | n + 1, c :: rest, h, hok => by
    have hn : rest.length ≤ n := by simpa [Nat.succ_le_succ_iff] using h
    simp only [rpGo]
    rw [if_neg fun hc => hok.1 hc.1 hc.2, rpGo_id n rest hn hok.2]

theorem removeParens_id {l : List Char} (h : parenOK l) : removeParens l = l :=
  rpGo_id _ _ le_rfl h

/-! The asterisk-removal pass. -/

theorem star_not_mem_removeStars (l : List Char) : '*' ∉ removeStars l := by
  simp [removeStars, List.mem_filter]

theorem removeStars_id {l : List Char} (h : '*' ∉ l) : removeStars l = l := by
  refine List.filter_eq_self.2 fun a ha => ?_
  simp only [ne_eq, decide_eq_true_eq]
  exact fun he => h (he ▸ ha)

/-! The whitespace-collapsing pass: its output is collapsed, and it is the
identity exactly on collapsed strings. -/

theorem head_dropWhile_false {α : Type} (p : α → Bool) :
    ∀ (l : List α) (d : α) (m : List α), l.dropWhile p = d :: m → p d = false := by
  intro l
  induction l with
  | nil => intro d m h; simp at h
  | cons a l ih =>
    intro d m h
    rw [List.dropWhile_cons] at h
    split at h
    · exact ih d m h
    · next ha =>
      cases h
      simpa using ha

theorem cwGo_nohead_space : ∀ (n : Nat) (l : List Char),
    (∀ d m, l = d :: m → isPySpace d = false) →
    (cwGo n l).dropWhile isPySpace = cwGo n l := by
  intro n l h
  match n, l with
  | _, [] => simp [cwGo]
  | 0, d :: m =>
    have hd := h d m rfl
    simp [cwGo, List.dropWhile_cons, hd]
  | n + 1, d :: m =>
    have hd := h d m rfl
    simp only [cwGo, hd, Bool.false_eq_true, if_false]
    simp [List.dropWhile_cons, hd]

theorem wsOK_cwGo : ∀ (n : Nat) (l : List Char), l.length ≤ n → wsOK (cwGo n l)
  | _, [], _ => by simp [cwGo, wsOK]
  | 0, c :: rest, h => absurd h (by simp)
  | n + 1, c :: rest, h => by
    have hn : rest.length ≤ n := by simpa [Nat.succ_le_succ_iff] using h
    have hdrop : (rest.dropWhile isPySpace).length ≤ rest.length :=
      (List.dropWhile_suffix isPySpace).length_le
    simp only [cwGo]
    split
    · refine ⟨fun _ => ⟨rfl, ?_⟩, wsOK_cwGo n _ (le_trans hdrop hn)⟩
      exact cwGo_nohead_space n _ (fun d m hm => head_dropWhile_false _ rest d m hm)
    · next hc =>
      exact ⟨fun hsp => absurd hsp hc, wsOK_cwGo n rest hn⟩

theorem wsOK_collapseWS (l : List Char) : wsOK (collapseWS l) :=
  wsOK_cwGo _ _ le_rfl

theorem parenOK_cwGo : ∀ (n : Nat) (l : List Char), parenOK l → parenOK (cwGo n l)
  | _, [], _ => by simp [cwGo, parenOK]
  | 0, c :: rest, h => h
  | n + 1, c :: rest, h => by
    simp only [cwGo]
    split
    · refine ⟨fun hc => absurd hc (by decide), ?_⟩
      exact parenOK_cwGo n _
        (parenOK_sublist (List.dropWhile_suffix isPySpace).sublist h.2)
    · refine ⟨fun hc hmem => ?_, parenOK_cwGo n rest h.2⟩
      rcases mem_cwGo n rest _ hmem with h3 | h3
      · exact h.1 hc h3
      · exact absurd h3 (by decide)

theorem wsOK_dropWhile (p : Char → Bool) :
    ∀ l : List Char, wsOK l → wsOK (l.dropWhile p) := by
  intro l
  induction l with
  | nil => exact fun h => h
  | cons c rest ih =>
    intro h
    rw [List.dropWhile_cons]
    split
    · exact ih h.2
    · exact h

theorem stripEnd_head (c : Char) (rest : List Char) :
    stripEnd (c :: rest) = [] ∨ (stripEnd (c :: rest)).head? = some c := by
  simp only [stripEnd]
  cases hr : stripEnd rest with
  | nil =>
    by_cases hc : isPySpace c = true
    · exact Or.inl (if_pos hc)
    · right
      rw [if_neg hc]
      rfl
  | cons d r => exact Or.inr rfl

theorem wsOK_stripEnd : ∀ l : List Char, wsOK l → wsOK (stripEnd l)
  | [], _ => by simp [stripEnd, wsOK]
  | c :: rest, h => by
    simp only [stripEnd]
    cases hr : stripEnd rest with
    | nil =>
      by_cases hc : isPySpace c = true
      · rw [if_pos hc]
        exact trivial
      · rw [if_neg hc]
        exact ⟨fun hsp => absurd hsp hc, trivial⟩
    | cons d r =>
      have h2 := wsOK_stripEnd rest h.2
      rw [hr] at h2
      refine ⟨fun hsp => ?_, h2⟩
      obtain ⟨hc, hdropOK⟩ := h.1 hsp
      refine ⟨hc, ?_⟩
      match rest, hr with
      | e :: rest2, hr =>
        have hde : d = e := by
          rcases stripEnd_head e rest2 with h3 | h3
          · rw [h3] at hr
            cases hr
          · rw [hr] at h3
            simpa using h3
        have he : isPySpace e = false := by
          by_contra hcon
          have he2 : isPySpace e = true := by
            revert hcon
            cases isPySpace e <;> simp
          rw [List.dropWhile_cons, if_pos he2] at hdropOK
          have := (List.dropWhile_suffix (l := rest2) isPySpace).length_le
          have := congrArg List.length hdropOK
          simp at this
          omega
        rw [List.dropWhile_cons, hde, he]
        simp

theorem stripEnd_cons_nil (c : Char) {rest : List Char} (h : stripEnd rest = []) :
    stripEnd (c :: rest) = if isPySpace c = true then [] else [c] := by
  show (match stripEnd rest with
    | [] => if isPySpace c = true then [] else [c]
    | r => c :: r) = _
  rw [h]

theorem stripEnd_cons_cons (c : Char) {rest : List Char} {d : Char} {r : List Char}
    (h : stripEnd rest = d :: r) : stripEnd (c :: rest) = c :: d :: r := by
  show (match stripEnd rest with
    | [] => if isPySpace c = true then [] else [c]
    | r => c :: r) = _
  rw [h]

theorem stripEnd_idem : ∀ l : List Char, stripEnd (stripEnd l) = stripEnd l
  | [] => rfl
  | c :: rest => by
    cases hr : stripEnd rest with
    | nil =>
      rw [stripEnd_cons_nil c hr]
      by_cases hc : isPySpace c = true
      · rw [if_pos hc]
        rfl
      · rw [if_neg hc,
          stripEnd_cons_nil c (show stripEnd ([] : List Char) = [] from rfl),
          if_neg hc]
    | cons d r =>
      have ih := stripEnd_idem rest
      rw [hr] at ih
      rw [stripEnd_cons_cons c hr, stripEnd_cons_cons c ih]

theorem cwGo_id : ∀ (n : Nat) (l : List Char), l.length ≤ n → wsOK l → cwGo n l = l
  | _, [], _, _ => by simp [cwGo]
  | 0, c :: rest, h, _ => absurd h (by simp)
  | n + 1, c :: rest, h, hok => by
    have hn : rest.length ≤ n := by simpa [Nat.succ_le_succ_iff] using h
    simp only [cwGo]
    by_cases hc : isPySpace c = true
    · obtain ⟨hspace, hdrop⟩ := hok.1 hc
      rw [if_pos hc, hdrop, cwGo_id n rest hn hok.2, hspace]
    · rw [if_neg hc, cwGo_id n rest hn hok.2]

theorem collapseWS_id {l : List Char} (h : wsOK l) : collapseWS l = l :=
  cwGo_id _ _ le_rfl h

theorem stripWS_drop (l : List Char) :
    (stripWS l).dropWhile isPySpace = stripWS l := by
  rw [stripWS]
  cases hm : l.dropWhile isPySpace with
  | nil => rfl
  | cons d m =>
    have hd : isPySpace d = false := head_dropWhile_false _ l d m hm
    rcases stripEnd_head d m with h1 | h1
    · rw [h1]
      rfl
    · cases he : stripEnd (d :: m) with
      | nil => rfl
      | cons e r =>
        rw [he] at h1
        have hed : e = d := by simpa using h1
        rw [List.dropWhile_cons, hed, hd]
        simp

theorem stripWS_idem (l : List Char) : stripWS (stripWS l) = stripWS l := by
  show stripEnd ((stripWS l).dropWhile isPySpace) = stripWS l
  rw [stripWS_drop]
  show stripEnd (stripEnd (l.dropWhile isPySpace)) = stripEnd (l.dropWhile isPySpace)
  exact stripEnd_idem _

/-- Claim C7: the Form Normalizer is idempotent — for every input string
`s`, `normalize_form (normalize_form s) = normalize_form s`. -/
theorem spec_C7 : ∀ l : List Char, normalize_form (normalize_form l) = normalize_form l := by
  intro l
  by_cases h0 : l = []
  · subst h0
    decide
  · have hy : normalize_form l = stripWS (collapseWS (removeStars (removeParens l))) := by
      rw [normalize_form, if_neg h0]
    by_cases hy0 : normalize_form l = []
    · rw [hy0]
      decide
    · rw [normalize_form, if_neg hy0]
      have hpar : parenOK (normalize_form l) := by
        rw [hy]
        exact parenOK_sublist (stripWS_sublist _)
          (parenOK_cwGo _ _ (parenOK_sublist (List.filter_sublist _)
            (parenOK_removeParens l)))
      rw [removeParens_id hpar]
      have hstar : '*' ∉ normalize_form l := by
        rw [hy]
        intro hm
        rcases mem_collapseWS ((stripWS_sublist _).subset hm) with hm3 | hm3
        · exact star_not_mem_removeStars _ hm3
        · exact absurd hm3 (by decide)
      rw [removeStars_id hstar]
      have hws : wsOK (normalize_form l) := by
        rw [hy]
        exact wsOK_stripEnd _ (wsOK_dropWhile _ _ (wsOK_collapseWS _))
      rw [collapseWS_id hws, hy, stripWS_idem]

/-! Whitespace-only and empty inputs. -/

theorem parenOK_of_not_mem {l : List Char} (h : '(' ∉ l) : parenOK l := by
  induction l with
  | nil => exact trivial
  | cons c rest ih =>
    refine ⟨fun hc => absurd (hc ▸ List.mem_cons_self c rest) h, ?_⟩
    exact ih fun hm => h (List.mem_cons_of_mem c hm)

theorem cwGo_allspace : ∀ (n : Nat) (l : List Char), l.length ≤ n → l ≠ [] →
    (∀ c ∈ l, isPySpace c = true) → cwGo n l = [' ']
  | _, [], _, hne, _ => absurd rfl hne
  | 0, c :: rest, h, _, _ => absurd h (by simp)
  | n + 1, c :: rest, _, _, h => by
    have hc : isPySpace c = true := h c (List.mem_cons_self c rest)
    have hdrop : rest.dropWhile isPySpace = [] :=
      List.dropWhile_eq_nil_iff.2 fun x hx => h x (List.mem_cons_of_mem c hx)
    simp [cwGo, hc, hdrop]

/-- Claim C9: empty or whitespace-only input normalizes to the empty
string and segments to the empty sequence (missing/empty transcriptions
propagate as empty data, never as failures — all embedded functions are
total). -/
theorem spec_C9 : ∀ l : List Char, (∀ c ∈ l, isPySpace c = true) →
    normalize_form l = [] ∧ extract_phonemes l = [] := by
  intro l h
  by_cases h0 : l = []
  · subst h0
    exact ⟨rfl, rfl⟩
  · have hpar : removeParens l = l :=
      removeParens_id (parenOK_of_not_mem fun hm => absurd (h _ hm) (by decide))
    have hstar : removeStars l = l :=
      removeStars_id fun hm => absurd (h _ hm) (by decide)
    have hcol : collapseWS l = [' '] := cwGo_allspace _ _ le_rfl h0 h
    have hn : normalize_form l = [] := by
      rw [normalize_form, if_neg h0, hpar, hstar, hcol]
      decide
    refine ⟨hn, ?_⟩
    rw [extract_phonemes, if_neg h0, hn]
    rfl

/-- Witness for C9 at the concrete whitespace-only input
`[' ', tab]`. -/
theorem spec_C9_witness :
    normalize_form [' ', Char.ofNat 9] = [] ∧
      extract_phonemes [' ', Char.ofNat 9] = [] :=
  spec_C9 [' ', Char.ofNat 9] (by decide)

/-! The similarity scorer: bridging the script's list computations to
finite-set cardinalities. -/

theorem length_filter_inter (l1 l2 : List (List Char)) :
    ((l1.dedup).filter (· ∈ l2.dedup)).length = (l1.toFinset ∩ l2.toFinset).card := by
  have hnd : ((l1.dedup).filter (· ∈ l2.dedup)).Nodup := (List.nodup_dedup l1).filter _
  calc ((l1.dedup).filter (· ∈ l2.dedup)).length
      = ((l1.dedup).filter (· ∈ l2.dedup)).dedup.length := by
        rw [List.dedup_eq_self.2 hnd]
    _ = ((l1.dedup).filter (· ∈ l2.dedup)).toFinset.card :=
        (List.card_toFinset _).symm
    _ = (l1.toFinset ∩ l2.toFinset).card := by
        congr 1
        ext x
        simp [List.mem_filter, List.mem_dedup]

theorem nodup_union_right {l1 l2 : List (List Char)} (h2 : l2.Nodup) :
    (l1 ∪ l2).Nodup := by
  induction l1 with
  | nil => exact h2
  | cons a l1 ih =>
    show (List.insert a (l1 ∪ l2)).Nodup
    by_cases ha : a ∈ l1 ∪ l2
    · simpa [List.insert_of_mem ha] using ih
    · rw [List.insert_of_not_mem ha]
      exact List.nodup_cons.2 ⟨ha, ih⟩

theorem length_union (l1 l2 : List (List Char)) :
    (l1.dedup ∪ l2.dedup).length = (l1.toFinset ∪ l2.toFinset).card := by
  have hnd : (l1.dedup ∪ l2.dedup).Nodup :=
    nodup_union_right (List.nodup_dedup l2)
  calc (l1.dedup ∪ l2.dedup).length
      = (l1.dedup ∪ l2.dedup).dedup.length := by rw [List.dedup_eq_self.2 hnd]
    _ = (l1.dedup ∪ l2.dedup).toFinset.card := (List.card_toFinset _).symm
    _ = (l1.toFinset ∪ l2.toFinset).card := by
        congr 1
        ext x
        simp [List.mem_union_iff, List.mem_dedup]

theorem similarity_eq (A B : List Char) :
    phonetic_similarity A B =
      if (extract_phonemes A).dedup = [] ∨ (extract_phonemes B).dedup = [] then 0
      else (((extract_phonemes A).toFinset ∩ (extract_phonemes B).toFinset).card : ℚ) /
        (((extract_phonemes A).toFinset ∪ (extract_phonemes B).toFinset).card : ℚ) := by
  rw [phonetic_similarity]
  by_cases hA : A = []
  · subst hA
    rw [if_pos (Or.inl rfl), if_pos (Or.inl (by decide))]
  · by_cases hB : B = []
    · subst hB
      rw [if_pos (Or.inr rfl), if_pos (Or.inr (by decide))]
    · rw [if_neg (not_or.2 ⟨hA, hB⟩)]
      by_cases hd : (extract_phonemes A).dedup = [] ∨ (extract_phonemes B).dedup = []
      · rw [if_pos hd, if_pos hd]
      · rw [if_neg hd, if_neg hd]
        have h1 : (extract_phonemes A).dedup ≠ [] := (not_or.1 hd).1
        obtain ⟨s, t, hseg⟩ : ∃ s t, (extract_phonemes A).dedup = s :: t := by
          cases hg : (extract_phonemes A).dedup with
          | nil => exact absurd hg h1
          | cons s t => exact ⟨s, t, rfl⟩
        have hmem : s ∈ (extract_phonemes A).dedup ∪ (extract_phonemes B).dedup :=
          List.mem_union_iff.2 (Or.inl (hseg ▸ List.mem_cons_self s t))
        have hpos : 0 < ((extract_phonemes A).dedup ∪ (extract_phonemes B).dedup).length :=
          List.length_pos.2 (List.ne_nil_of_mem hmem)
        rw [if_pos hpos, length_filter_inter, length_union]

theorem similarity_self {A : List Char} (h : extract_phonemes A ≠ []) :
    phonetic_similarity A A = 1 := by
  rw [similarity_eq]
  have hd : (extract_phonemes A).dedup ≠ [] := by
    intro hc
    exact h (by simpa using hc)
  rw [if_neg (by simp [hd]), Finset.inter_self, Finset.union_self]
  have hcard : ((extract_phonemes A).toFinset.card : ℚ) ≠ 0 := by
    rw [Nat.cast_ne_zero, ← Nat.pos_iff_ne_zero]
    obtain ⟨x, hx⟩ := List.exists_mem_of_ne_nil _ h
    exact Finset.card_pos.2 ⟨x, List.mem_toFinset.2 hx⟩
  exact div_self hcard

/-- Claim C8: the Similarity Scorer is symmetric, its result lies in
`[0, 1]`, and it returns exactly `0` whenever either input's
distinct-segment set is empty (never undefined, never a division by
zero — the embedding is a total function into `ℚ`). -/
theorem spec_C8 : ∀ A B : List Char,
    phonetic_similarity A B = phonetic_similarity B A ∧
    0 ≤ phonetic_similarity A B ∧ phonetic_similarity A B ≤ 1 ∧
    ((extract_phonemes A).dedup = [] ∨ (extract_phonemes B).dedup = [] →
      phonetic_similarity A B = 0) := by
  intro A B
  rw [similarity_eq, similarity_eq B A]
  refine ⟨?_, ?_, ?_, ?_⟩
  · by_cases hd : (extract_phonemes A).dedup = [] ∨ (extract_phonemes B).dedup = []
    · rw [if_pos hd, if_pos hd.symm]
    · rw [if_neg hd, if_neg (fun hc => hd hc.symm),
        Finset.inter_comm, Finset.union_comm]
  · split
    · exact le_refl 0
    · exact div_nonneg (Nat.cast_nonneg _) (Nat.cast_nonneg _)
  · split
    · exact zero_le_one
    · next hd =>
      have h1 : (extract_phonemes A).dedup ≠ [] := (not_or.1 hd).1
      have h2 : extract_phonemes A ≠ [] := by
        intro hc
        exact h1 (by simp [hc])
      obtain ⟨x, hx⟩ := List.exists_mem_of_ne_nil _ h2
      have hpos : 0 < ((extract_phonemes A).toFinset ∪ (extract_phonemes B).toFinset).card :=
        Finset.card_pos.2 ⟨x, Finset.mem_union_left _ (List.mem_toFinset.2 hx)⟩
      rw [div_le_one (by exact_mod_cast hpos)]
      have hsub : (extract_phonemes A).toFinset ∩ (extract_phonemes B).toFinset ⊆
          (extract_phonemes A).toFinset ∪ (extract_phonemes B).toFinset :=
        fun y hy => Finset.mem_union_left _ (Finset.mem_inter.1 hy).1
      exact_mod_cast Finset.card_le_card hsub
  · intro h
    rw [if_pos h]

/-- Witness for C8's zero-on-empty-segments hypothesis: the digit-only
string segments to nothing, so its similarity with anything is 0. -/
theorem spec_C8_witness : phonetic_similarity ['1'] ['a','b'] = 0 :=
  (spec_C8 ['1'] ['a','b']).2.2.2 (Or.inl (by decide))

/-- Counterexample to C3 as stated: `"1"` is a non-empty string, but it
segments to nothing, so the self-similarity is 0, not 1. -/
theorem spec_C3_cex :
    (['1'] : List Char) ≠ [] ∧ phonetic_similarity ['1'] ['1'] ≠ 1 := by
  refine ⟨by decide, by decide⟩

/-- Claim C3 (amended): the self-similarity is exactly 1 whenever the
input yields at least one segment (a non-empty string whose characters
are all skipped by the segmenter still scores 0). -/
theorem spec_C3 : ∀ A : List Char, extract_phonemes A ≠ [] →
    phonetic_similarity A A = 1 :=
  fun _ h => similarity_self h

/-- Witness for C3 at the concrete input `"ab"`. -/
theorem spec_C3_witness : phonetic_similarity ['a','b'] ['a','b'] = 1 :=
  spec_C3 ['a','b'] (by decide)

/-- Claim C1: on the two-entry example, the correspondence table for the
language pair (A, B) (coded 0, 1) contains ("ts","ts") with count 1 and
("nd","nd") with count 1, the similarity of "nda" with itself is 1, and
"tsa" segments digraph-first into "ts"·"a", never "t"·"s"·"a". -/
theorem spec_C1 :
    correspondence_count
        [⟨['w','a','t','e','r'], [(0, ['t','s','a']), (1, ['t','s','i'])]⟩,
         ⟨['f','i','r','e'], [(0, ['n','d','a']), (1, ['n','d','a'])]⟩]
        0 1 ['t','s'] ['t','s'] = 1 ∧
    correspondence_count
        [⟨['w','a','t','e','r'], [(0, ['t','s','a']), (1, ['t','s','i'])]⟩,
         ⟨['f','i','r','e'], [(0, ['n','d','a']), (1, ['n','d','a'])]⟩]
        0 1 ['n','d'] ['n','d'] = 1 ∧
    phonetic_similarity ['n','d','a'] ['n','d','a'] = 1 ∧
    extract_phonemes ['t','s','a'] = [['t','s'], ['a']] ∧
    extract_phonemes ['t','s','a'] ≠ [['t'], ['s'], ['a']] :=
  ⟨by decide, by decide, similarity_self (by decide), by decide, by decide⟩

/-- Claim C2: a correspondence pair accumulates only when both languages
resolve to an initial segment for the entry; a missing form, an empty
form, or an unsegmentable form yields `none` (no synthetic segment), and
an entry with `none` on either side contributes zero observations. -/
theorem spec_C2 :
    (∀ (forms : List (Nat × List Char)) (lang : Nat),
        forms.lookup lang = none → initial_segment forms lang = none) ∧
    (∀ (forms : List (Nat × List Char)) (lang : Nat),
        forms.lookup lang = some [] → initial_segment forms lang = none) ∧
    (∀ (forms : List (Nat × List Char)) (lang : Nat) (f : List Char),
        forms.lookup lang = some f → extract_phonemes (first_variant f) = [] →
        initial_segment forms lang = none) ∧
    (∀ (e : LexicalEntry) (es : List LexicalEntry) (l1 l2 : Nat)
        (s1 s2 : List Char),
        initial_segment e.forms l1 = none ∨ initial_segment e.forms l2 = none →
        correspondence_count (e :: es) l1 l2 s1 s2 =
          correspondence_count es l1 l2 s1 s2) := by
  refine ⟨?_, ?_, ?_, ?_⟩
  · intro forms lang h
    simp [initial_segment, h]
  · intro forms lang h
    simp [initial_segment, h]
  · intro forms lang f h1 h2
    simp only [initial_segment, h1, h2]
    split <;> rfl
  · intro e es l1 l2 s1 s2 h
    rw [correspondence_count, correspondence_count, List.countP_cons]
    have hne : ¬(initial_segment e.forms l1 = some s1 ∧
        initial_segment e.forms l2 = some s2) := by
      rcases h with h | h <;> simp [h]
    simp [hne]

/-- Witness for C2: an entry in which language 1 has no form contributes
nothing to the (0,1) pair. -/
theorem spec_C2_witness :
    correspondence_count [⟨['f','i','r','e'], [(0, ['n','d','a'])]⟩]
        0 1 ['n','d'] ['n','d'] =
      correspondence_count [] 0 1 ['n','d'] ['n','d'] :=
  spec_C2.2.2.2 ⟨['f','i','r','e'], [(0, ['n','d','a'])]⟩ [] 0 1
    ['n','d'] ['n','d'] (Or.inr (by decide))

/-- Claim C10: the segmenter's scanning loop terminates — every iteration
consumes at least one character, so the remaining-string length is a
well-founded measure and any iteration budget of at least the input
length yields the loop's final result. -/
theorem spec_C10 : ∀ (fuel : Nat) (l : List Char), l.length ≤ fuel →
    segGo fuel l = segLoop l :=
  fun fuel l h => segGo_congr fuel l.length l h le_rfl

/-- Witness for C10 at a concrete input and budget. -/
theorem spec_C10_witness : segGo 5 ['t','s','a'] = segLoop ['t','s','a'] :=
  spec_C10 5 ['t','s','a'] (by decide)

/-! The stable insertion sort and the de-duplicating report loop. -/

theorem mem_insertOrd {α : Type} (r : α → α → Prop) [DecidableRel r] (a x : α) :
    ∀ l : List α, x ∈ insertOrd r a l ↔ x = a ∨ x ∈ l
  | [] => by simp [insertOrd]
  | b :: l => by
    simp only [insertOrd]
    split
    · simp [List.mem_cons]
    · rw [List.mem_cons, mem_insertOrd r a x l, List.mem_cons]
      tauto

theorem mem_sortOrd {α : Type} (r : α → α → Prop) [DecidableRel r] (x : α) :
    ∀ l : List α, x ∈ sortOrd r l ↔ x ∈ l
  | [] => Iff.rfl
  | a :: l => by
    simp only [sortOrd]
    rw [mem_insertOrd, mem_sortOrd r x l, List.mem_cons]

theorem sorted_insertOrd {α : Type} (r : α → α → Prop) [DecidableRel r]
    (htot : ∀ a b, r a b ∨ r b a) (htrans : ∀ a b c, r a b → r b c → r a c)
    (a : α) : ∀ l : List α, l.Sorted r → (insertOrd r a l).Sorted r
  | [], _ => by simp [insertOrd]
  | b :: l, h => by
    simp only [insertOrd]
    split
    · next hab =>
      rw [List.sorted_cons]
      refine ⟨fun x hx => ?_, h⟩
      rcases List.mem_cons.1 hx with rfl | hx'
      · exact hab
      · exact htrans a b x hab ((List.sorted_cons.1 h).1 x hx')
    · next hab =>
      rw [List.sorted_cons]
      constructor
      · intro x hx
        rcases (mem_insertOrd r a x l).1 hx with rfl | hx'
        · rcases htot x b with h1 | h1
          · exact absurd h1 hab
          · exact h1
        · exact (List.sorted_cons.1 h).1 x hx'
      · exact sorted_insertOrd r htot htrans a l (List.sorted_cons.1 h).2

theorem sorted_sortOrd {α : Type} (r : α → α → Prop) [DecidableRel r]
    (htot : ∀ a b, r a b ∨ r b a) (htrans : ∀ a b c, r a b → r b c → r a c) :
    ∀ l : List α, (sortOrd r l).Sorted r
  | [] => by simp [sortOrd]
  | a :: l => sorted_insertOrd r htot htrans a _ (sorted_sortOrd r htot htrans l)

theorem seen_filter_sublist : ∀ (seen : List (List Char)) (l : List Candidate),
    (seen_glosses_filter seen l).Sublist l
  | _, [] => by simp [seen_glosses_filter]
  | seen, c :: rest => by
    simp only [seen_glosses_filter]
    split
    · exact (seen_filter_sublist seen rest).cons c
    · exact (seen_filter_sublist _ rest).cons₂ c

theorem seen_filter_nodup : ∀ (seen : List (List Char)) (l : List Candidate),
    ((seen_glosses_filter seen l).map Candidate.gloss).Nodup ∧
      ∀ g ∈ (seen_glosses_filter seen l).map Candidate.gloss, g ∉ seen
  | _, [] => by simp [seen_glosses_filter]
  | seen, c :: rest => by
    simp only [seen_glosses_filter]
    split
    · exact seen_filter_nodup seen rest
    · next hc =>
      obtain ⟨ih1, ih2⟩ := seen_filter_nodup (c.gloss :: seen) rest
      constructor
      · rw [List.map_cons, List.nodup_cons]
        exact ⟨fun hmem => (ih2 _ hmem) (List.mem_cons_self _ _), ih1⟩
      · intro g hg
        rw [List.map_cons, List.mem_cons] at hg
        rcases hg with rfl | hg'
        · exact hc
        · exact fun hseen => (ih2 g hg') (List.mem_cons_of_mem _ hseen)

/-- Counterexample to C4 as stated: fifteen duplicate candidates of gloss
"g1" fill the truncated top-15 list, so the distinct gloss "g2" — above
the 0.4 threshold — is dropped from the report, which could not happen if
de-duplication preceded truncation. -/
theorem spec_C4_cex :
    (∃ c ∈ List.replicate 15 (⟨['g','1'], 1⟩ : Candidate) ++ [⟨['g','2'], 1⟩],
        c.gloss = ['g','2'] ∧ (2 : ℚ)/5 < c.similarity) ∧
    ∀ c ∈ cognate_report
        (List.replicate 15 (⟨['g','1'], 1⟩ : Candidate) ++ [⟨['g','2'], 1⟩]),
      c.gloss ≠ ['g','2'] := by
  constructor
  · exact ⟨⟨['g','2'], 1⟩, by decide, rfl, by norm_num⟩
  · decide

/-- Claim C4 (amended): the report truncates to the top 15 by descending
similarity first and only then de-duplicates by gloss; each gloss appears
at most once, every reported item comes from the sorted top-15, and the
report stays sorted — but slots can be consumed by duplicate glosses. -/
theorem spec_C4 : ∀ cands : List Candidate,
    ((cognate_report cands).map Candidate.gloss).Nodup ∧
    (cognate_report cands).Sublist ((sortDesc cands).take 15) ∧
    (cognate_report cands).Sorted
      (fun a b => b.similarity ≤ a.similarity) := by
  intro cands
  refine ⟨(seen_filter_nodup [] _).1, seen_filter_sublist [] _, ?_⟩
  have hs : (sortDesc cands).Sorted (fun a b => b.similarity ≤ a.similarity) :=
    sorted_sortOrd _ (fun a b => le_total b.similarity a.similarity)
      (fun _ _ _ h1 h2 => le_trans h2 h1) cands
  exact List.Pairwise.sublist
    ((seen_filter_sublist [] _).trans (List.take_sublist _ _)) hs

/-- Claim C6: the alignment loop pairs source segment `i` with daughter
segment `i` only for `i < min(3, |source segments|)` and only when the
daughter has a segment at `i` (the length equation makes both bounds
exact); in the aggregated table a source is reported iff observed with
total count ≥ 3, with at most three targets sorted by descending count,
each carrying its true count; and "tsa" vs "sa" yields exactly
("ts"→"s") at index 0 and ("a"→"a") at index 1. -/
theorem spec_C6 :
    (∀ pm da : List Char, (align_observations pm da).length =
        min (min 3 (extract_phonemes pm).length) (extract_phonemes da).length) ∧
    (∀ (pm da : List Char) (i : Nat) (a b : List Char), i < 3 →
        (extract_phonemes pm)[i]? = some a →
        (extract_phonemes da)[i]? = some b →
        (align_observations pm da)[i]? = some (a, b)) ∧
    (∀ (obs : List (List Char × List Char)) (src : List Char),
        src ∈ (pm_to_daughter_report obs).map Prod.fst ↔
          src ∈ obs.map Prod.fst ∧ 3 ≤ pm_to_daughter_total obs src) ∧
    (∀ (obs : List (List Char × List Char)) (src : List Char),
        (pm_to_daughter_top3 obs src).length ≤ 3 ∧
        (pm_to_daughter_top3 obs src).Sorted (fun p q => q.2 ≤ p.2) ∧
        ∀ p ∈ pm_to_daughter_top3 obs src,
          p.2 = pm_to_daughter_count obs src p.1) ∧
    align_observations ['t','s','a'] ['s','a'] =
      [(['t','s'], ['s']), (['a'], ['a'])] := by
  refine ⟨?_, ?_, ?_, ?_, by decide⟩
  · intro pm da
    simp only [align_observations, List.length_zip, List.length_take]
    omega
  · intro pm da i a b h3 ha hb
    obtain ⟨hia, hga⟩ := List.getElem?_eq_some.1 ha
    obtain ⟨hib, hgb⟩ := List.getElem?_eq_some.1 hb
    have hz : i < (align_observations pm da).length := by
      simp only [align_observations, List.length_zip, List.length_take]
      omega
    rw [List.getElem?_eq_getElem hz]
    have hzval : (align_observations pm da)[i] = (a, b) := by
      simp only [align_observations] at hz ⊢
      rw [List.getElem_zip, List.getElem_take, hga, hgb]
    rw [hzval]
  · intro obs src
    simp only [pm_to_daughter_report, List.map_map, List.mem_map,
      Function.comp, List.mem_filter, List.mem_dedup, decide_eq_true_eq]
    constructor
    · rintro ⟨s, ⟨hs1, hs2⟩, rfl⟩
      exact ⟨hs1, hs2⟩
    · rintro ⟨h1, h2⟩
      exact ⟨src, ⟨h1, h2⟩, rfl⟩
  · intro obs src
    refine ⟨?_, ?_, ?_⟩
    · simp only [pm_to_daughter_top3]
      exact List.length_take_le _ _
    · have hs : (sortOrd (fun p q : List Char × Nat => q.2 ≤ p.2)
          (((obs.filter fun o => decide (o.1 = src)).map Prod.snd).dedup.map
            fun t => (t, pm_to_daughter_count obs src t))).Sorted
          (fun p q => q.2 ≤ p.2) :=
        sorted_sortOrd (fun p q : List Char × Nat => q.2 ≤ p.2)
          (fun a b => le_total b.2 a.2)
          (fun _ _ _ h1 h2 => le_trans h2 h1) _
      exact List.Pairwise.sublist (List.take_sublist _ _) hs
    · intro p hp
      have hp2 : p ∈ sortOrd (fun p q : List Char × Nat => q.2 ≤ p.2)
          (((obs.filter fun o => decide (o.1 = src)).map Prod.snd).dedup.map
            fun t => (t, pm_to_daughter_count obs src t)) :=
        (List.take_sublist _ _).subset hp
      rw [mem_sortOrd] at hp2
      obtain ⟨t, _, hpt⟩ := List.mem_map.1 hp2
      rw [← hpt]

/-- Witness for C6's index-pairing hypothesis at the alignment example. -/
theorem spec_C6_witness :
    (align_observations ['t','s','a'] ['s','a'])[0]? = some (['t','s'], ['s']) :=
  spec_C6.2.1 ['t','s','a'] ['s','a'] 0 ['t','s'] ['s']
    (by decide) (by decide) (by decide)

/-! Digit characters: they survive normalization but never reach any
emitted segment (the segmenter's alphabetic filter skips them). -/

theorem isDigit_iff {c : Char} :
    c.isDigit = true ↔ 48 ≤ c.toNat ∧ c.toNat ≤ 57 := by
  simp [Char.isDigit, Char.toNat, UInt32.le_def, UInt32.toNat, BitVec.le_def]

theorem isDigit_pyToLower {c : Char} (h : (pyToLower c).isDigit = true) :
    c.isDigit = true := by
  by_cases hcap : c = Char.ofNat 0xD1
  · rw [pyToLower, if_pos hcap] at h
    exact absurd h (by decide)
  · rw [pyToLower, if_neg hcap] at h
    by_cases hr : 65 ≤ c.toNat ∧ c.toNat ≤ 90
    · have htl : c.toLower = Char.ofNat (c.toNat + 32) := by
        show (if c.toNat ≥ 65 ∧ c.toNat ≤ 90 then Char.ofNat (c.toNat + 32) else c) = _
        exact if_pos ⟨hr.1, hr.2⟩
      rw [htl] at h
      obtain ⟨h1, h2⟩ := hr
      generalize hg : c.toNat = n at h1 h2 h
      interval_cases n <;> exact absurd h (by decide)
    · have htl : c.toLower = c := by
        show (if c.toNat ≥ 65 ∧ c.toNat ≤ 90 then Char.ofNat (c.toNat + 32) else c) = c
        exact if_neg hr
      rw [htl] at h
      exact h

theorem isUpper_iff {c : Char} :
    c.isUpper = true ↔ 65 ≤ c.toNat ∧ c.toNat ≤ 90 := by
  simp [Char.isUpper, Char.toNat, UInt32.le_def, UInt32.toNat, BitVec.le_def]

theorem isLower_iff {c : Char} :
    c.isLower = true ↔ 97 ≤ c.toNat ∧ c.toNat ≤ 122 := by
  simp [Char.isLower, Char.toNat, UInt32.le_def, UInt32.toNat, BitVec.le_def]

theorem segstart_not_digit {x : Char} (hx : isSegStart x = true) :
    x.isDigit = false := by
  by_contra hcon
  rw [Bool.not_eq_false] at hcon
  have hrange := isDigit_iff.1 hcon
  simp only [isSegStart, pyIsAlpha, glottalChars, Bool.or_eq_true,
    decide_eq_true_eq, List.mem_cons, List.not_mem_nil, or_false] at hx
  rcases hx with (halpha | hextra) | hglottal
  · simp only [Char.isAlpha, Bool.or_eq_true] at halpha
    rcases halpha with h | h
    · have := isUpper_iff.1 h
      omega
    · have := isLower_iff.1 h
      omega
  · rcases hextra with rfl | rfl | rfl | rfl | rfl | rfl | rfl | rfl | rfl |
      rfl | rfl | rfl | rfl <;> exact absurd hcon (by decide)
  · rcases hglottal with rfl | rfl | rfl | rfl <;> exact absurd hcon (by decide)

theorem segstart_lower_not_digit {x : Char} (hx : isSegStart x = true) :
    (pyToLower x).isDigit = false := by
  by_contra hcon
  rw [Bool.not_eq_false] at hcon
  have h2 := isDigit_pyToLower hcon
  rw [segstart_not_digit hx] at h2
  cases h2

theorem digraph_snd_not_digit {x b : Char} (h : isDigraphPair x b = true) :
    (pyToLower b).isDigit = false := by
  simp only [isDigraphPair, digraphs, List.mem_cons, List.not_mem_nil,
    or_false, decide_eq_true_eq, List.cons.injEq, and_true] at h
  rcases h with ⟨-, h2⟩ | ⟨-, h2⟩ | ⟨-, h2⟩ | ⟨-, h2⟩ | ⟨-, h2⟩ | ⟨-, h2⟩ |
    ⟨-, h2⟩ | ⟨-, h2⟩ | ⟨-, h2⟩ | ⟨-, h2⟩ | ⟨-, h2⟩ | ⟨-, h2⟩ | ⟨-, h2⟩ |
    ⟨-, h2⟩ | ⟨-, h2⟩ | ⟨-, h2⟩ | ⟨-, h2⟩ | ⟨-, h2⟩ | ⟨-, h2⟩ | ⟨-, h2⟩ <;>
      rw [h2] <;> decide

theorem mark_lower_not_digit {m : Char} (hm : isMark m = true) :
    (pyToLower m).isDigit = false := by
  have hge : 768 ≤ m.toNat := by
    simp only [isMark, Bool.or_eq_true, Bool.and_eq_true,
      decide_eq_true_eq] at hm
    omega
  have hne : m ≠ Char.ofNat 0xD1 := by
    intro h
    rw [h] at hge
    exact absurd hge (by decide)
  rw [pyToLower, if_neg hne]
  have htl : m.toLower = m := by
    show (if m.toNat ≥ 65 ∧ m.toNat ≤ 90 then Char.ofNat (m.toNat + 32) else m) = m
    exact if_neg (by omega)
  rw [htl]
  by_contra hd
  rw [Bool.not_eq_false] at hd
  have := isDigit_iff.1 hd
  omega

theorem segGo_no_digit : ∀ (n : Nat) (l s : List Char) (c : Char),
    s ∈ segGo n l → c ∈ s → c.isDigit = false
  | _, [], s, c, hs, _ => by simp [segGo] at hs
  | 0, x :: rest, s, c, hs, _ => by simp [segGo] at hs
  | n + 1, x :: rest, s, c, hs, hc => by
    cases rest with
    | nil =>
      simp only [segGo] at hs
      split at hs
      · next hstart =>
        simp only [List.mem_cons, List.not_mem_nil, or_false] at hs
        subst hs
        rcases List.mem_cons.1 hc with rfl | hc'
        · exact segstart_lower_not_digit hstart
        · simp at hc'
      · simp [segGo] at hs
    | cons b rest2 =>
      simp only [segGo] at hs
      split at hs
      · next hstart =>
        split at hs
        · next hdg =>
          rcases List.mem_cons.1 hs with hs1 | hs2
          · subst hs1
            obtain ⟨c0, hc0, hlower⟩ := List.mem_map.1 hc
            subst hlower
            rcases List.mem_cons.1 hc0 with rfl | hc0'
            · exact segstart_lower_not_digit hstart
            rcases List.mem_cons.1 hc0' with rfl | hc0''
            · exact digraph_snd_not_digit hdg
            · exact mark_lower_not_digit (List.mem_takeWhile_imp hc0'')
          · exact segGo_no_digit n _ s c hs2 hc
        · rcases List.mem_cons.1 hs with hs1 | hs2
          · subst hs1
            obtain ⟨c0, hc0, hlower⟩ := List.mem_map.1 hc
            subst hlower
            rcases List.mem_cons.1 hc0 with rfl | hc0'
            · exact segstart_lower_not_digit hstart
            · exact mark_lower_not_digit (List.mem_takeWhile_imp hc0')
          · exact segGo_no_digit n _ s c hs2 hc
      · exact segGo_no_digit n (b :: rest2) s c hs hc

/-- Counterexample to C5 as stated: the tone digit in `"a1"` survives
normalization, so the normalizer's output can contain decimal digits. -/
theorem spec_C5_cex :
    '1' ∈ normalize_form ['a','1'] ∧ ('1').isDigit = true := by
  exact ⟨by decide, by decide⟩

/-- Claim C5 (amended): the Form Normalizer strips parentheticals,
reconstruction asterisks and redundant separators, but not tone digits —
digits survive normalization (witnessed on "a1"); they are instead
discarded by the Segmenter's alphabetic filter, so no emitted segment ever
contains a decimal digit. -/
theorem spec_C5 :
    '1' ∈ normalize_form ['a','1'] ∧
    (∀ l : List Char, '*' ∉ normalize_form l) ∧
    (∀ (l s : List Char) (c : Char),
        s ∈ extract_phonemes l → c ∈ s → c.isDigit = false) := by
  refine ⟨by decide, ?_, ?_⟩
  · intro l hmem
    rw [normalize_form] at hmem
    split at hmem
    · simp at hmem
    · rcases mem_collapseWS ((stripWS_sublist _).subset hmem) with h1 | h1
      · exact star_not_mem_removeStars _ h1
      · exact absurd h1 (by decide)
  · intro l s c hs hc
    rw [extract_phonemes] at hs
    split at hs
    · simp at hs
    · exact segGo_no_digit _ _ s c hs hc

/-- Witness for C5's segment part: in "ba3" the digit is skipped and the
emitted segment "a" carries no digit. -/
theorem spec_C5_witness : ('a').isDigit = false :=
  spec_C5.2.2 ['b','a','3'] ['a'] 'a' (by decide) (by decide)


end Isthmus
